import Mathlib

/-!
Verification of the METIS-based mesh partitioner of the libMesh finite
element library, a shallow embedding of
`src/partitioning/metis_partitioner.C` (`MetisPartitioner::partition_range`).

Embedding conventions:

* The embedding fixes the build configuration that the specification
  describes and that exercises every interesting branch of the source:
  `LIBMESH_HAVE_METIS` defined (the METIS path, not the SFC fallback),
  `LIBMESH_ENABLE_AMR` defined, `LIBMESH_ENABLE_UNIQUE_ID` undefined (so
  the duplicate-hint fix-up code of lines 135-173 is live), and debug
  assertions active (`libmesh_assert*` halts the program).
* A single process is modelled (`mesh.processor_id() == 0`), so the METIS
  invocation runs and `broadcast` is the identity on the data; the
  broadcast is still recorded as an event, since the claims speak about it.
* Mesh elements are modelled at the capability level the source uses them
  at (the `Elem` class itself is not part of the partitioner): identifier,
  `processor_id`, dimension, active flag, per-side neighbor pointers,
  `interior_parent` presence, `find_interior_neighbors` result and
  `active_family_tree` result as data.
* The external METIS entry points are opaque: they are a function
  parameter of the embedding, with their documented contract (partition
  ids in `[0, nparts)`) taken as a hypothesis where a claim needs it.
-/

namespace LibMeshMetis

/-- The compile-time spatial dimension `LIBMESH_DIM` of the build; 3 is the
standard configuration. Lower-dimensional ("boundary") elements are those
with `dim() < LIBMESH_DIM`. -/
def LIBMESH_DIM : Nat := 3

/-! ## Global index assignment (metis_partitioner.C lines 109-188)

Elements of the partitioned range are represented, in iteration order, as
pairs `(id, key)` of the element identifier `elem->id()` and its
space-filling-curve key. -/

/-- Modelled from the spec: `MeshCommunication::find_global_indices` (not
under `src/`) derives, per element, a spatial locality hint from a
Hilbert-style space-filling-curve key. We model the hint of a key as the
number of range elements with a strictly smaller key, so distinct keys give
distinct hints and equal (overlapping-element) keys give equal hints — the
duplicate case the source fixes up. -/
def sfcHint (keys : List Nat) (k : Nat) : Nat :=
  (keys.filter (fun x => decide (x < k))).length

/-- The range paired with its `find_global_indices` output: for each element
`(id, key)` of the range, the pair `(id, hint)` where `hint` is this
element's entry of the `global_index` vector (line 121-125). -/
def indexedRange (ps : List (Nat × Nat)) : List (Nat × Nat) :=
  ps.map (fun p => (p.1, sfcHint (ps.map Prod.snd) p.2))

/-- One `global_index_inverses[gi].push_back(id)` step (lines 148-151):
append `id` to the bucket of hint `gi`, creating the bucket if absent. -/
def addInverse (m : List (Nat × List Nat)) (gi id : Nat) : List (Nat × List Nat) :=
  match m with
  | [] => [(gi, [id])]
  | b :: rest => if b.1 = gi then (b.1, b.2 ++ [id]) :: rest else b :: addInverse rest gi id

/-- The `global_index_inverses` buckets (lines 141-153): for every hint
value, the ids of the range elements carrying it, in iteration order. -/
def global_index_inverses (ps : List (Nat × Nat)) : List (Nat × List Nat) :=
  (indexedRange ps).foldl (fun m p => addInverse m p.2 p.1) []

/-- The `found_duplicate_indices` flag (lines 143-152): the source sets it
when an id is pushed onto an already non-empty bucket, which holds exactly
when some final bucket has at least two entries. -/
def found_duplicate_indices (ps : List (Nat × Nat)) : Bool :=
  (global_index_inverses ps).any (fun b => 2 ≤ b.2.length)

/-- Insertion step for the `std::map` ordering of `sorted_inverses`. -/
def insertBucket (b : Nat × List Nat) : List (Nat × List Nat) → List (Nat × List Nat)
  | [] => [b]
  | c :: rest => if b.1 ≤ c.1 then b :: c :: rest else c :: insertBucket b rest

/-- The `sorted_inverses` map (lines 160-162): the buckets reordered by
increasing hint value (bucket keys are distinct, so any stable order of
equal keys is moot). -/
def sorted_inverses (ps : List (Nat × Nat)) : List (Nat × List Nat) :=
  (global_index_inverses ps).foldr insertBucket []

/-- Assign consecutive indices starting at `k` to a list of element ids;
this is the `new_global_index++` loop of lines 163-166. -/
def assignFrom : Nat → List Nat → List (Nat × Nat)
  | _, [] => []
  | k, id :: rest => (id, k) :: assignFrom (k + 1) rest

/-- The `global_index_map` built by `partition_range` (lines 117-174,
non-unique-id configuration), as an association list `id ↦ global index` in
emplacement order. With duplicate hints present, buckets are renumbered
densely in sorted-hint order, iteration order within a bucket; otherwise
each element is mapped to its hint directly. The backing `vectormap` (not
under `src/`) is modelled from the spec as a key-value map filled by
`emplace` and read by `count`/lookup. -/
def build_global_index_map (ps : List (Nat × Nat)) : List (Nat × Nat) :=
  if found_duplicate_indices ps then
    assignFrom 0 ((sorted_inverses ps).flatMap Prod.snd)
  else
    indexedRange ps

/-- The `global_index_map.count(i)` test of the source. -/
def gimCount (gim : List (Nat × Nat)) (i : Nat) : Bool :=
  gim.any (fun p => p.1 = i)

/-- Lookup of an element id in the global index map. -/
def gimLookup (gim : List (Nat × Nat)) (i : Nat) : Option Nat :=
  (gim.find? (fun p => p.1 = i)).map Prod.snd

/-- The `global_index_map[i]` access of the source (defaulting to 0 on a
missing key, which the source's assertions rule out). -/
def gimFind (gim : List (Nat × Nat)) (i : Nat) : Nat :=
  (gimLookup gim i).getD 0

/-- The map is a bijection from the given ids onto `{0, ..., n-1}`: the
key multiset is exactly the ids, no index is repeated, every index is below
`n`, and no index below `n` is missed. -/
def IsBijOnto (gim : List (Nat × Nat)) (ids : List Nat) (n : Nat) : Prop :=
  gim.length = n ∧
  (gim.map Prod.fst).Perm ids ∧
  (gim.map Prod.snd).Nodup ∧
  (∀ v ∈ gim.map Prod.snd, v < n) ∧
  (∀ j < n, j ∈ gim.map Prod.snd)

/-- Proof helper: the contents of the bucket stored for hint `g` (empty if
the bucket is absent). -/
def bucketGet : List (Nat × List Nat) → Nat → List Nat
  | [], _ => []
  | b :: rest, g => if b.1 = g then b.2 else bucketGet rest g

/-- Proof helper: the ids among the pairs `l` whose hint is `g`, in order. -/
def idsWithHint (l : List (Nat × Nat)) (g : Nat) : List Nat :=
  (l.filter (fun p => p.2 = g)).map Prod.fst

/-! ## Mesh elements and the two CSR passes (lines 194-486)

Elements are modelled at the capability level `partition_range` consumes:
the `Elem` class itself is an external collaborator. `intNbrs` is the
result of `find_interior_neighbors` as pairs `(id, same-mesh flag)`, where
the flag records whether `mesh.query_elem_ptr(id)` returns that very
neighbor (C++ pointer identity — false when the neighbor belongs to a
different mesh, the BoundaryMesh case). `afTree` is the result of
`active_family_tree`. -/

structure ElemRec where
  eid : Nat
  pid : Nat
  key : Nat
  edim : Nat
  nnodes : Nat
  spline_node : Bool
  active : Bool
  sides : List (Option Nat)
  has_ip : Bool
  intNbrs : List (Nat × Bool)
  afTree : List Nat
deriving Repr, DecidableEq

/-- The mesh's `query_elem_ptr` / neighbor-pointer dereference: the element
of the mesh carrying the given id, if any. -/
def query_elem_ptr (mesh : List ElemRec) (i : Nat) : Option ElemRec :=
  mesh.find? (fun e => e.eid = i)

/-- Modelled from the spec: `Elem::which_neighbor_am_i` (an element
capability, not under `src/`) — the side of `nb` whose neighbor pointer is
the element with id `i`. -/
def which_neighbor_am_i (nb : ElemRec) (i : Nat) : Nat :=
  (nb.sides.findIdx? (fun s => s = some i)).getD 0

/-- The `interior_to_boundary_map` multimap (lines 194-211): every
lower-dimensional range element with an interior parent contributes one
entry `(interior neighbor id, same-mesh flag, boundary element id)` per
interior neighbor. The source skips an element when
`dim() >= LIBMESH_DIM || !interior_parent()`; the positive condition is
kept here. -/
def interior_to_boundary_map (rng : List ElemRec) : List (Nat × Bool × Nat) :=
  rng.flatMap (fun e =>
    if e.edim < LIBMESH_DIM ∧ e.has_ip then
      e.intNbrs.map (fun nf => (nf.1, nf.2, e.eid))
    else [])

/-- The `equal_range(elem)` lookup into the multimap (lines 359-363 and
473-479): the boundary elements recorded against interior element `i` —
only entries whose stored neighbor pointer is the mesh's own element of
that id can compare equal to a range element. -/
def boundary_neighbors (i2b : List (Nat × Bool × Nat)) (i : Nat) : List Nat :=
  (i2b.filter (fun t => t.1 = i && t.2.1)).map (fun t => t.2.2)

/-- Pass 1 (sizing), per-side neighbor count of lines 283-346: a null
neighbor counts zero; an active neighbor outside the partitioned range is
treated as null; an active in-range neighbor counts one; an inactive
(refined) neighbor contributes each in-range member of its active family
tree whose neighbor on the shared side is the element itself. -/
def countSide (mesh : List ElemRec) (gim : List (Nat × Nat)) (e : ElemRec) :
    Option Nat → Nat
  | none => 0
  | some nid =>
    match query_elem_ptr mesh nid with
    | none => 0
    | some nb =>
      if nb.active && !gimCount gim nid then 0
      else if nb.active then 1
      else
        (nb.afTree.filter (fun cid =>
          gimCount gim cid &&
          match query_elem_ptr mesh cid with
          | some c => decide (c.sides.getD (which_neighbor_am_i nb e.eid) none = some e.eid)
          | none => false)).length

/-- Pass 1 (sizing), lines 279-363: the `num_neighbors` count of one
element — the per-side counts, plus all of `find_interior_neighbors` when
the element is lower-dimensional with an interior parent, plus the
boundary neighbors recorded against it. -/
def pass1_count (mesh : List ElemRec) (gim : List (Nat × Nat))
    (i2b : List (Nat × Bool × Nat)) (e : ElemRec) : Nat :=
  (e.sides.map (countSide mesh gim e)).sum
  + (if e.edim < LIBMESH_DIM ∧ e.has_ip then e.intNbrs.length else 0)
  + (boundary_neighbors i2b e.eid).length

/-- Pass 2 (filling), per-side writes of lines 390-446: the same traversal
as `countSide`, now emitting the discovered neighbors' global indices. -/
def writeSide (mesh : List ElemRec) (gim : List (Nat × Nat)) (e : ElemRec) :
    Option Nat → List Nat
  | none => []
  | some nid =>
    match query_elem_ptr mesh nid with
    | none => []
    | some nb =>
      if nb.active && !gimCount gim nid then []
      else if nb.active then [gimFind gim nid]
      else
        (nb.afTree.filter (fun cid =>
          gimCount gim cid &&
          match query_elem_ptr mesh cid with
          | some c => decide (c.sides.getD (which_neighbor_am_i nb e.eid) none = some e.eid)
          | none => false)).map (gimFind gim)

/-- Pass 2 (filling), lines 381-480: the global indices written into the
element's CSR row. Unlike pass 1, the interior-neighbor block re-checks
that `query_elem_ptr` returns the very neighbor object (lines 455-470,
"Not all interior neighbors are necessarily in the same Mesh") and skips
those that are not — the same-mesh flag of the model. -/
def pass2_writes (mesh : List ElemRec) (gim : List (Nat × Nat))
    (i2b : List (Nat × Bool × Nat)) (e : ElemRec) : List Nat :=
  (e.sides.flatMap (writeSide mesh gim e))
  ++ (if e.edim < LIBMESH_DIM ∧ e.has_ip then
        (e.intNbrs.filter (fun nf => nf.2)).map (fun nf => gimFind gim nf.1)
      else [])
  ++ (boundary_neighbors i2b e.eid).map (gimFind gim)

/-! ## The CSR graph (lines 235-486) -/

structure METIS_CSR_Graph where
  offsets : List Nat
  vals : List Nat
deriving Repr, DecidableEq

/-- Modelled from the spec: `METIS_CSR_Graph::prep_n_nonzeros`
(metis_csr_graph.h, not under `src/`) records row `row`'s width into
offset slot `row + 1`; slot 0 stays 0. -/
def prep_n_nonzeros (offs : List Nat) (row nnz : Nat) : List Nat :=
  offs.set (row + 1) nnz

/-- Running sums of a list starting from `acc` (the in-place
`std::partial_sum` over the offsets). -/
def scanSums : List Nat → Nat → List Nat
  | [], _ => []
  | x :: rest, acc => (acc + x) :: scanSums rest (acc + x)

/-- Modelled from the spec: `METIS_CSR_Graph::prepare_for_use` (not under
`src/`) prefix-sums the offsets and allocates the value array, forcing one
dummy slot when the graph has no edges at all — "We create a non-empty
vals for a disconnected graph, to work around a segfault from METIS"
(lines 482-485, where the source asserts
`vals.size() == max(graph_size, 1)`). -/
def prepare_for_use (offs : List Nat) : METIS_CSR_Graph :=
  { offsets := scanSums offs 0,
    vals := List.replicate (max ((scanSums offs 0).getLastD 0) 1) 0 }

/-- Write the row contents `ws` into `vals` starting at slot `start`; this
is the `csr_graph(elem_global_index, connection++) = ...` sequence of
pass 2. -/
def fillRow (vals : List Nat) (start : Nat) : List Nat → List Nat
  | [] => vals
  | w :: ws => fillRow (vals.set start w) (start + 1) ws

/-- The CSR graph construction of lines 237-486: size each element's row by
pass 1 into the offset slot after its global index, prefix-sum, then fill
each element's row by pass 2 at its row offset. -/
def build_csr_graph (mesh : List ElemRec) (gim : List (Nat × Nat))
    (i2b : List (Nat × Bool × Nat)) (rng : List ElemRec) : METIS_CSR_Graph :=
  let offs1 := rng.foldl
    (fun o e => prep_n_nonzeros o (gimFind gim e.eid) (pass1_count mesh gim i2b e))
    (List.replicate (rng.length + 1) 0)
  let g := prepare_for_use offs1
  { offsets := g.offsets,
    vals := rng.foldl
      (fun v e => fillRow v (g.offsets.getD (gimFind gim e.eid) 0)
        (pass2_writes mesh gim i2b e)) g.vals }

/-- The vertex weight of one element (lines 263-277, no user-supplied
weight override): a spline node element (`NODEELEM` with a rational
Bernstein mapping) gets 50, every other element its node count. -/
def vertex_weight (e : ElemRec) : Nat :=
  if e.spline_node then 50 else e.nnodes

/-- The `vwgt` array, indexed by global index (lines 222, 260-277). -/
def build_vwgt (gim : List (Nat × Nat)) (rng : List ElemRec) : List Nat :=
  rng.foldl (fun v e => v.set (gimFind gim e.eid) (vertex_weight e))
    (List.replicate rng.length 0)

/-! ## The partitioner facade (lines 69-546) -/

/-- Observable events of one `partition_range` call, in program order. -/
inductive PREvent where
  | warnGather
  | allgather
  | builtIndexMap
  | builtGraph
  | engineRecursive
  | engineKway
  | broadcast
deriving Repr, DecidableEq

/-- Result of one `partition_range` call: the range elements (with updated
processor ids), whether the mesh is serial afterwards, the events of the
call, and whether a `libmesh_assert` halted it. -/
structure PRResult where
  rng : List ElemRec
  serial : Bool
  trace : List PREvent
  halted : Bool
deriving Repr, DecidableEq

/-- Modelled from the spec: `Partitioner::single_partition_range` (not
under `src/`) — the trivial path "assign all elements in range to
partition 0". -/
def single_partition_range (rng : List ElemRec) : List ElemRec :=
  rng.map (fun e => { e with pid := 0 })

/-- Lines 532-544: give every range element the broadcast partition entry
found at its global index. -/
def assign_partition (gim : List (Nat × Nat)) (part : List Nat)
    (rng : List ElemRec) : List ElemRec :=
  rng.map (fun e => { e with pid := part.getD (gimFind gim e.eid) 0 })

/-- `MetisPartitioner::partition_range` (lines 69-546) on a single process
with METIS present. `engine` is the opaque external METIS entry point (it
receives the CSR graph, the vertex weights and `nparts`, and fills the
`part` array); which entry point runs is recorded as an event — recursive
bisection for `n_pieces <= 8`, direct k-way otherwise (lines 490-522).
The `libmesh_assert_greater (n_pieces, 0)` of line 84 is modelled as a
halt. A non-serial mesh prints the gather warning and is gathered (lines
86-91), after which it is serial. -/
def partition_range (mesh : List ElemRec)
    (engine : METIS_CSR_Graph → List Nat → Nat → List Nat)
    (rng : List ElemRec) (serial : Bool) (n_pieces : Nat) : PRResult :=
  if rng = [] then ⟨rng, serial, [], false⟩
  else if n_pieces = 1 then ⟨single_partition_range rng, serial, [], false⟩
  else if n_pieces = 0 then ⟨rng, serial, [], true⟩
  else
    let tr0 : List PREvent := if serial then [] else [.warnGather, .allgather]
    let gim := build_global_index_map (rng.map (fun e => (e.eid, e.key)))
    let i2b := interior_to_boundary_map rng
    let part := engine (build_csr_graph mesh gim i2b rng) (build_vwgt gim rng) n_pieces
    let ev : PREvent := if n_pieces ≤ 8 then .engineRecursive else .engineKway
    ⟨assign_partition gim part rng, true,
      tr0 ++ [.builtIndexMap, .builtGraph, ev, .broadcast], false⟩

/-- Number of gather warnings printed in a trace. -/
def warnCount (tr : List PREvent) : Nat :=
  tr.count .warnGather

/-- Concrete boundary element for counterexamples: lower-dimensional, with
an interior parent whose single interior neighbor lives in another mesh
(same-mesh flag false). -/
def cexBoundaryElem : ElemRec :=
  { eid := 1, pid := 0, key := 0, edim := 2, nnodes := 4, spline_node := false,
    active := true, sides := [], has_ip := true, intNbrs := [(7, false)], afTree := [] }

/-- Concrete interior element pair for witnesses: element 1 has element 2
as an in-mesh interior neighbor. -/
def witBoundaryElem : ElemRec :=
  { eid := 1, pid := 0, key := 0, edim := 2, nnodes := 4, spline_node := false,
    active := true, sides := [], has_ip := true, intNbrs := [(2, true)], afTree := [] }

/-- A plain active volume element with no neighbors, used in concrete runs. -/
def plainElem : ElemRec :=
  { eid := 1, pid := 5, key := 0, edim := 3, nnodes := 8, spline_node := false,
    active := true, sides := [], has_ip := false, intNbrs := [], afTree := [] }

/-- A concrete stand-in engine for witnesses: a one-element partition
vector with value 1. -/
def engineOne : METIS_CSR_Graph → List Nat → Nat → List Nat :=
  fun _ _ _ => [1]

/-! ## Lemmas about the global index assignment -/

theorem bucketGet_addInverse (m : List (Nat × List Nat)) (gi id g : Nat) :
    bucketGet (addInverse m gi id) g =
      if g = gi then bucketGet m g ++ [id] else bucketGet m g := by
  induction m with
  | nil =>
      by_cases h : g = gi
      · subst h
        simp [addInverse, bucketGet]
      · have h' : ¬ gi = g := fun hh => h hh.symm
        simp [addInverse, bucketGet, h, h']
  | cons b rest ih =>
      by_cases hb : b.1 = gi
      · subst hb
        by_cases hg : b.1 = g
        · subst hg
          simp [addInverse, bucketGet]
        · have hg' : ¬ g = b.1 := fun h => hg h.symm
          simp [addInverse, bucketGet, hg, hg']
      · by_cases hg : b.1 = g
        · have : ¬ g = gi := fun h => hb (hg.trans h)
          simp [addInverse, bucketGet, hb, hg, this]
        · simp [addInverse, bucketGet, hb, hg, ih]

theorem bucketGet_foldl (l : List (Nat × Nat)) (m : List (Nat × List Nat)) (g : Nat) :
    bucketGet (l.foldl (fun acc p => addInverse acc p.2 p.1) m) g =
      bucketGet m g ++ idsWithHint l g := by
  induction l generalizing m with
  | nil => simp [idsWithHint]
  | cons p rest ih =>
      simp only [List.foldl_cons]
      rw [ih, bucketGet_addInverse]
      by_cases h : g = p.2
      · simp [idsWithHint, List.filter_cons, h]
      · have h' : ¬ p.2 = g := fun hh => h hh.symm
        simp [idsWithHint, List.filter_cons, h, h']

theorem keys_addInverse (m : List (Nat × List Nat)) (gi id : Nat) :
    (addInverse m gi id).map Prod.fst =
      if gi ∈ m.map Prod.fst then m.map Prod.fst else m.map Prod.fst ++ [gi] := by
  induction m with
  | nil => simp [addInverse]
  | cons b rest ih =>
      by_cases hb : b.1 = gi
      · subst hb
        simp [addInverse]
      · by_cases hgi : gi ∈ rest.map Prod.fst
        · rw [List.map_cons]
          simp only [addInverse, if_neg hb, List.map_cons, ih]
          rw [if_pos hgi, if_pos (List.mem_cons_of_mem b.1 hgi)]
        · have hnotin : gi ∉ b.1 :: rest.map Prod.fst := by
            intro hc
            rcases List.mem_cons.mp hc with h1 | h2
            · exact hb h1.symm
            · exact hgi h2
          rw [List.map_cons]
          simp only [addInverse, if_neg hb, List.map_cons, ih]
          rw [if_neg hgi, if_neg hnotin, List.cons_append]

theorem keys_nodup_foldl (l : List (Nat × Nat)) (m : List (Nat × List Nat))
    (h : (m.map Prod.fst).Nodup) :
    (((l.foldl (fun acc p => addInverse acc p.2 p.1) m)).map Prod.fst).Nodup := by
  induction l generalizing m with
  | nil => exact h
  | cons p rest ih =>
      simp only [List.foldl_cons]
      apply ih
      rw [keys_addInverse]
      split_ifs with hmem
      · exact h
      · simp [List.nodup_append, h, hmem]

theorem bucketGet_of_mem (m : List (Nat × List Nat)) (b : Nat × List Nat)
    (hnd : (m.map Prod.fst).Nodup) (hb : b ∈ m) : bucketGet m b.1 = b.2 := by
  induction m with
  | nil => cases hb
  | cons c rest ih =>
      rcases List.mem_cons.mp hb with heq | hmem
      · subst heq; simp [bucketGet]
      · have hnd' : (c.1 :: rest.map Prod.fst).Nodup := by
          rw [← List.map_cons]
          exact hnd
        have hkeys := List.nodup_cons.mp hnd'
        have hc : ¬ c.1 = b.1 := by
          intro hh
          exact hkeys.1 (hh ▸ List.mem_map_of_mem Prod.fst hmem)
        simp only [bucketGet, if_neg hc]
        exact ih hkeys.2 hmem

theorem bucketGet_ne_nil_mem (m : List (Nat × List Nat)) (g : Nat)
    (h : bucketGet m g ≠ []) : (g, bucketGet m g) ∈ m := by
  induction m with
  | nil => simp [bucketGet] at h
  | cons b rest ih =>
      by_cases hb : b.1 = g
      · simp only [bucketGet, if_pos hb]
        subst hb
        simp
      · simp only [bucketGet, if_neg hb] at h ⊢
        exact List.mem_cons_of_mem b (ih h)

theorem length_idsWithHint (l : List (Nat × Nat)) (g : Nat) :
    (idsWithHint l g).length = (l.map Prod.snd).count g := by
  induction l with
  | nil => simp [idsWithHint]
  | cons p rest ih =>
      simp only [idsWithHint, List.filter_cons, List.map_cons, List.count_cons] at ih ⊢
      by_cases h : p.2 = g
      · subst h
        simp [ih]
      · have h' : ¬ g = p.2 := fun hh => h hh.symm
        simp [h, h', ih]

theorem found_duplicate_indices_iff (ps : List (Nat × Nat)) :
    found_duplicate_indices ps = true ↔
      ¬ ((indexedRange ps).map Prod.snd).Nodup := by
  have hfold : ∀ g, bucketGet (global_index_inverses ps) g = idsWithHint (indexedRange ps) g := by
    intro g
    have := bucketGet_foldl (indexedRange ps) [] g
    simpa [global_index_inverses, bucketGet] using this
  constructor
  · intro h hnodup
    rw [found_duplicate_indices, List.any_eq_true] at h
    obtain ⟨b, hbmem, hlen⟩ := h
    rw [decide_eq_true_eq] at hlen
    have hnd : ((global_index_inverses ps).map Prod.fst).Nodup :=
      keys_nodup_foldl (indexedRange ps) [] (by simp)
    have hbg := bucketGet_of_mem _ b hnd hbmem
    have hcnt := List.nodup_iff_count_le_one.mp hnodup b.1
    have := length_idsWithHint (indexedRange ps) b.1
    rw [← hfold b.1, hbg] at this
    omega
  · intro h
    obtain ⟨g, hg⟩ : ∃ g, 2 ≤ ((indexedRange ps).map Prod.snd).count g := by
      by_contra hc
      push_neg at hc
      exact h (List.nodup_iff_count_le_one.mpr fun a => by have := hc a; omega)
    have hlen : 2 ≤ (bucketGet (global_index_inverses ps) g).length := by
      rw [hfold g, length_idsWithHint]
      exact hg
    have hne : bucketGet (global_index_inverses ps) g ≠ [] := by
      intro hh
      rw [hh] at hlen
      simp at hlen
    have hmem := bucketGet_ne_nil_mem _ g hne
    rw [found_duplicate_indices, List.any_eq_true]
    exact ⟨(g, bucketGet (global_index_inverses ps) g), hmem, by simpa using hlen⟩

theorem nodup_bounded_complete (l : List Nat) (n : Nat) (hnd : l.Nodup)
    (hlt : ∀ v ∈ l, v < n) (hlen : l.length = n) : ∀ j < n, j ∈ l := by
  intro j hj
  have hsub : l.toFinset ⊆ Finset.range n := by
    intro x hx
    rw [List.mem_toFinset] at hx
    exact Finset.mem_range.mpr (hlt x hx)
  have hcard : (Finset.range n).card ≤ l.toFinset.card := by
    rw [List.toFinset_card_of_nodup hnd, hlen, Finset.card_range]
  have heq := Finset.eq_of_subset_of_card_le hsub hcard
  rw [← List.mem_toFinset, heq]
  exact Finset.mem_range.mpr hj

theorem sfcHint_lt_length (keys : List Nat) (k : Nat) (h : k ∈ keys) :
    sfcHint keys k < keys.length :=
  List.length_filter_lt_length_iff_exists.mpr ⟨k, h, by simp⟩

theorem flat_addInverse (m : List (Nat × List Nat)) (gi id : Nat) :
    ((addInverse m gi id).flatMap Prod.snd).Perm ((m.flatMap Prod.snd) ++ [id]) := by
  induction m with
  | nil => simp [addInverse]
  | cons b rest ih =>
      by_cases hb : b.1 = gi
      · simp only [addInverse, if_pos hb, List.flatMap_cons]
        rw [List.append_assoc, List.append_assoc]
        exact List.Perm.append_left b.2 List.perm_append_comm
      · simp only [addInverse, if_neg hb, List.flatMap_cons]
        refine (ih.append_left b.2).trans ?_
        rw [List.append_assoc]

theorem flat_foldl (l : List (Nat × Nat)) (m : List (Nat × List Nat)) :
    ((l.foldl (fun acc p => addInverse acc p.2 p.1) m).flatMap Prod.snd).Perm
      ((m.flatMap Prod.snd) ++ l.map Prod.fst) := by
  induction l generalizing m with
  | nil => simp
  | cons p rest ih =>
      simp only [List.foldl_cons, List.map_cons]
      refine (ih (addInverse m p.2 p.1)).trans ?_
      have h2 := (flat_addInverse m p.2 p.1).append_right (rest.map Prod.fst)
      refine h2.trans ?_
      rw [List.append_assoc, List.singleton_append]

theorem flat_insertBucket (b : Nat × List Nat) (l : List (Nat × List Nat)) :
    ((insertBucket b l).flatMap Prod.snd).Perm (b.2 ++ l.flatMap Prod.snd) := by
  induction l with
  | nil => simp [insertBucket]
  | cons c rest ih =>
      by_cases h : b.1 ≤ c.1
      · simp [insertBucket, h]
      · simp only [insertBucket, if_neg h, List.flatMap_cons]
        refine (ih.append_left c.2).trans ?_
        rw [← List.append_assoc, ← List.append_assoc]
        exact List.perm_append_comm.append_right _

theorem flat_sorted_inverses (ps : List (Nat × Nat)) :
    ((sorted_inverses ps).flatMap Prod.snd).Perm
      ((global_index_inverses ps).flatMap Prod.snd) := by
  rw [sorted_inverses]
  generalize global_index_inverses ps = l
  induction l with
  | nil => simp
  | cons b rest ih =>
      simp only [List.foldr_cons, List.flatMap_cons]
      exact (flat_insertBucket b _).trans (ih.append_left b.2)

theorem assignFrom_map_fst (k : Nat) (l : List Nat) :
    (assignFrom k l).map Prod.fst = l := by
  induction l generalizing k with
  | nil => rfl
  | cons a rest ih => simp [assignFrom, ih]

theorem assignFrom_map_snd (k : Nat) (l : List Nat) :
    (assignFrom k l).map Prod.snd = List.range' k l.length := by
  induction l generalizing k with
  | nil => rfl
  | cons a rest ih => simp [assignFrom, ih, List.range'_succ]

theorem assignFrom_length (k : Nat) (l : List Nat) :
    (assignFrom k l).length = l.length := by
  have := congrArg List.length (assignFrom_map_fst k l)
  simpa using this

theorem indexedRange_map_fst (ps : List (Nat × Nat)) :
    (indexedRange ps).map Prod.fst = ps.map Prod.fst := by
  simp [indexedRange, List.map_map]

theorem indexedRange_length (ps : List (Nat × Nat)) :
    (indexedRange ps).length = ps.length := by
  simp [indexedRange]

/-- The bijection property of the built global index map, shared by the
developments below. -/
theorem gim_isBijOnto (ps : List (Nat × Nat)) :
    IsBijOnto (build_global_index_map ps) (ps.map Prod.fst) ps.length := by
  by_cases hdup : found_duplicate_indices ps = true
  · rw [build_global_index_map, if_pos hdup]
    have hperm : ((sorted_inverses ps).flatMap Prod.snd).Perm (ps.map Prod.fst) := by
      refine (flat_sorted_inverses ps).trans ?_
      have h2 := flat_foldl (indexedRange ps) []
      rw [global_index_inverses]
      refine h2.trans ?_
      rw [indexedRange_map_fst]
      simp
    have hlen : ((sorted_inverses ps).flatMap Prod.snd).length = ps.length := by
      have := hperm.length_eq
      simpa using this
    refine ⟨?_, ?_, ?_, ?_, ?_⟩
    · rw [assignFrom_length, hlen]
    · rw [assignFrom_map_fst]
      exact hperm
    · rw [assignFrom_map_snd]
      exact List.nodup_range' 0 _ 1 (by norm_num)
    · rw [assignFrom_map_snd, hlen]
      intro v hv
      have := List.mem_range'_1.mp hv
      omega
    · rw [assignFrom_map_snd, hlen]
      intro j hj
      exact List.mem_range'_1.mpr ⟨Nat.zero_le _, by omega⟩
  · rw [build_global_index_map, if_neg hdup]
    have hnodup : ((indexedRange ps).map Prod.snd).Nodup := by
      by_contra hc
      exact hdup ((found_duplicate_indices_iff ps).mpr hc)
    have hbound : ∀ v ∈ (indexedRange ps).map Prod.snd, v < ps.length := by
      intro v hv
      simp only [indexedRange, List.map_map] at hv
      rw [List.mem_map] at hv
      obtain ⟨p, hp, hpv⟩ := hv
      have hk : p.2 ∈ ps.map Prod.snd := List.mem_map_of_mem Prod.snd hp
      have := sfcHint_lt_length (ps.map Prod.snd) p.2 hk
      rw [← hpv]
      simpa using this
    refine ⟨indexedRange_length ps, ?_, hnodup, hbound, ?_⟩
    · rw [indexedRange_map_fst]
    · have hlen : ((indexedRange ps).map Prod.snd).length = ps.length := by
        simp [indexedRange]
      exact nodup_bounded_complete _ _ hnodup hbound hlen

/-- Claim C2: for every element range of size `n` (with distinct element
ids, as the mesh guarantees and the source's debug assertions of lines
179-187 check), the `global_index_map` built by `partition_range` is a
bijection from the element ids of the range onto `{0, ..., n-1}`: every
element appears exactly once as a key, no two elements share an index, no
index is out of range and no index below `n` is missing. -/
theorem metis_C2_global_index_map_bijection (ps : List (Nat × Nat))
    (hids : (ps.map Prod.fst).Nodup) :
    IsBijOnto (build_global_index_map ps) (ps.map Prod.fst) ps.length :=
  gim_isBijOnto ps

/-- Witness for C2 at a concrete range with a duplicated SFC key. -/
theorem metis_C2_witness :
    (([(1, 5), (2, 9), (3, 5)] : List (Nat × Nat)).map Prod.fst).Nodup ∧
    IsBijOnto (build_global_index_map [(1, 5), (2, 9), (3, 5)])
      (([(1, 5), (2, 9), (3, 5)] : List (Nat × Nat)).map Prod.fst) 3 :=
  ⟨by decide, metis_C2_global_index_map_bijection [(1, 5), (2, 9), (3, 5)] (by decide)⟩

theorem find?_map_key (l : List (Nat × Nat)) (f : Nat × Nat → Nat) (i : Nat) :
    ((l.map (fun p => (p.1, f p))).find? (fun q => q.1 = i)) =
      (l.find? (fun p => p.1 = i)).map (fun p => (p.1, f p)) := by
  induction l with
  | nil => rfl
  | cons p rest ih =>
      by_cases h : p.1 = i <;> simp [List.find?_cons, h, ih]

theorem find?_eq_some_of_nodup (l : List (Nat × Nat)) (i k : Nat)
    (hnd : (l.map Prod.fst).Nodup) (hmem : (i, k) ∈ l) :
    l.find? (fun p => p.1 = i) = some (i, k) := by
  induction l with
  | nil => cases hmem
  | cons p rest ih =>
      have hnd' : (p.1 :: rest.map Prod.fst).Nodup := by
        rw [← List.map_cons]
        exact hnd
      have hkeys := List.nodup_cons.mp hnd'
      rcases List.mem_cons.mp hmem with heq | hmem'
      · rw [← heq]
        simp [List.find?_cons]
      · have hne : ¬ p.1 = i := by
          intro hh
          have : (i, k).1 ∈ rest.map Prod.fst := List.mem_map_of_mem Prod.fst hmem'
          exact hkeys.1 (hh ▸ this)
        simp only [List.find?_cons, hne, decide_eq_false_iff_not.mpr hne]
        exact ih hkeys.2 hmem'

theorem find?_eq_none_of_not_mem (l : List (Nat × Nat)) (i : Nat)
    (h : i ∉ l.map Prod.fst) : l.find? (fun p => p.1 = i) = none := by
  rw [List.find?_eq_none]
  intro p hp
  simp only [decide_eq_true_eq]
  intro hpi
  exact h (hpi ▸ List.mem_map_of_mem Prod.fst hp)

/-- Counterexample to claim C3: with two distinct elements that receive the
same space-filling-curve hint, iterating the same set of elements in two
different orders yields two different global index maps — the duplicate
fix-up of lines 158-167 numbers colliding elements in encounter order, not
in a canonical order, so the assignment is not independent of iteration
order. Here element 1 receives index 0 under one order and index 1 under
the other. -/
theorem metis_C3_counterexample :
    ¬ (∀ ps qs : List (Nat × Nat), ps.Perm qs → ∀ i,
        gimLookup (build_global_index_map ps) i =
          gimLookup (build_global_index_map qs) i) := by
  intro h
  have := h [(1, 5), (2, 5)] [(2, 5), (1, 5)] (by decide) 1
  revert this
  decide

/-- Claim C3 as amended: when no two elements of the range receive the same
spatial hint (and element ids are distinct), the global index assignment is
independent of the iteration order: any permutation of the range produces
the identical element-id-to-index mapping. When hints do collide, colliding
elements get increasing indices in encounter order within their hint
bucket (buckets in increasing hint order), which does depend on the
iteration order. -/
theorem metis_C3_order_independence_no_collision
    (ps qs : List (Nat × Nat))
    (hids : (ps.map Prod.fst).Nodup)
    (hhints : ((indexedRange ps).map Prod.snd).Nodup)
    (hperm : ps.Perm qs) :
    ∀ i, gimLookup (build_global_index_map ps) i =
      gimLookup (build_global_index_map qs) i := by
  have hkeysperm : (ps.map Prod.snd).Perm (qs.map Prod.snd) := hperm.map Prod.snd
  have hhintfun : ∀ k, sfcHint (qs.map Prod.snd) k = sfcHint (ps.map Prod.snd) k := by
    intro k
    exact (hkeysperm.filter (fun x => decide (x < k))).length_eq.symm
  have hfun : (fun p : Nat × Nat => sfcHint (qs.map Prod.snd) p.2) =
      (fun p : Nat × Nat => sfcHint (ps.map Prod.snd) p.2) :=
    funext fun p => hhintfun p.2
  have hhq : ((indexedRange qs).map Prod.snd).Nodup := by
    have heq : (indexedRange qs).map Prod.snd =
        qs.map (fun p => sfcHint (ps.map Prod.snd) p.2) := by
      simp only [indexedRange, List.map_map]
      rw [show (Prod.snd ∘ fun p : Nat × Nat => (p.1, sfcHint (qs.map Prod.snd) p.2)) =
        (fun p : Nat × Nat => sfcHint (qs.map Prod.snd) p.2) from rfl, hfun]
    have hps : (indexedRange ps).map Prod.snd =
        ps.map (fun p => sfcHint (ps.map Prod.snd) p.2) := by
      simp only [indexedRange, List.map_map]
      rfl
    rw [heq]
    have : (ps.map (fun p => sfcHint (ps.map Prod.snd) p.2)).Perm
        (qs.map (fun p => sfcHint (ps.map Prod.snd) p.2)) :=
      hperm.map _
    rw [hps] at hhints
    exact this.nodup_iff.mp hhints
  have hidq : (qs.map Prod.fst).Nodup :=
    (hperm.map Prod.fst).nodup_iff.mp hids
  have hdp : ¬ found_duplicate_indices ps = true := by
    intro hc
    exact (found_duplicate_indices_iff ps).mp hc hhints
  have hdq : ¬ found_duplicate_indices qs = true := by
    intro hc
    exact (found_duplicate_indices_iff qs).mp hc hhq
  intro i
  rw [build_global_index_map, if_neg hdp, build_global_index_map, if_neg hdq]
  by_cases hi : i ∈ ps.map Prod.fst
  · rw [List.mem_map] at hi
    obtain ⟨p, hp, hpfst⟩ := hi
    have hp' : (i, p.2) ∈ ps := by
      rw [← hpfst]
      simpa using hp
    have hq' : (i, p.2) ∈ qs := hperm.subset hp'
    rw [gimLookup, gimLookup, indexedRange, indexedRange,
      find?_map_key ps (fun p => sfcHint (ps.map Prod.snd) p.2) i,
      find?_map_key qs (fun p => sfcHint (qs.map Prod.snd) p.2) i,
      find?_eq_some_of_nodup ps i p.2 hids hp',
      find?_eq_some_of_nodup qs i p.2 hidq hq']
    simp [hhintfun]
  · have hiq : i ∉ qs.map Prod.fst := by
      intro hc
      exact hi ((hperm.map Prod.fst).mem_iff.mpr hc)
    rw [gimLookup, gimLookup, indexedRange, indexedRange,
      find?_map_key ps (fun p => sfcHint (ps.map Prod.snd) p.2) i,
      find?_map_key qs (fun p => sfcHint (qs.map Prod.snd) p.2) i,
      find?_eq_none_of_not_mem ps i hi, find?_eq_none_of_not_mem qs i hiq]
    rfl

/-- Witness for the amended C3 at a concrete collision-free range and a
transposed iteration order. -/
theorem metis_C3_witness :
    (([(1, 10), (2, 30)] : List (Nat × Nat)).map Prod.fst).Nodup ∧
    ((indexedRange [(1, 10), (2, 30)]).map Prod.snd).Nodup ∧
    ([(1, 10), (2, 30)] : List (Nat × Nat)).Perm [(2, 30), (1, 10)] ∧
    (∀ i, gimLookup (build_global_index_map [(1, 10), (2, 30)]) i =
      gimLookup (build_global_index_map [(2, 30), (1, 10)]) i) :=
  ⟨by decide, by decide, by decide,
    metis_C3_order_independence_no_collision [(1, 10), (2, 30)] [(2, 30), (1, 10)]
      (by decide) (by decide) (by decide)⟩

/-! ## Lemmas about the two CSR passes -/

theorem countSide_eq_writeSide_length (mesh : List ElemRec) (gim : List (Nat × Nat))
    (e : ElemRec) (s : Option Nat) :
    countSide mesh gim e s = (writeSide mesh gim e s).length := by
  cases s with
  | none => rfl
  | some nid =>
      rcases hq : query_elem_ptr mesh nid with _ | nb
      · simp [countSide, writeSide, hq]
      · by_cases h1 : (nb.active && !gimCount gim nid) = true
        · simp [countSide, writeSide, hq, h1]
        · by_cases h2 : nb.active = true
          · have h3 : gimCount gim nid = true := by
              cases hg : gimCount gim nid
              · exact absurd (by simp [h2, hg]) h1
              · rfl
            simp [countSide, writeSide, hq, h1, h2, h3]
          · simp [countSide, writeSide, hq, h1, h2]

theorem sum_countSide_eq_length (mesh : List ElemRec) (gim : List (Nat × Nat))
    (e : ElemRec) (ss : List (Option Nat)) :
    (ss.map (countSide mesh gim e)).sum = (ss.flatMap (writeSide mesh gim e)).length := by
  induction ss with
  | nil => rfl
  | cons s rest ih =>
      simp [List.flatMap_cons, countSide_eq_writeSide_length, ih]

/-- Claim C4 as amended: the per-element neighbor count of pass 1 (sizing)
equals the number of adjacency entries pass 2 (filling) writes for that
element — the face-neighbor, AMR-descendant and boundary-neighbor
traversals are reused identically — provided every interior neighbor the
element reports is an element of the mesh being partitioned. Pass 2
additionally skips interior neighbors that `query_elem_ptr` does not
recognise (the BoundaryMesh case of lines 455-470), a filter pass 1 does
not apply, so without that hypothesis pass 1 can over-count. -/
theorem metis_C4_pass_counts_agree (mesh : List ElemRec) (gim : List (Nat × Nat))
    (i2b : List (Nat × Bool × Nat)) (e : ElemRec)
    (hin : ∀ nf ∈ e.intNbrs, nf.2 = true) :
    pass1_count mesh gim i2b e = (pass2_writes mesh gim i2b e).length := by
  rw [pass1_count, pass2_writes, List.length_append, List.length_append,
    sum_countSide_eq_length mesh gim e e.sides]
  congr 1
  · congr 1
    split_ifs with h
    · rw [List.length_map, List.filter_eq_self.mpr hin]
    · rfl
  · rw [List.length_map]

/-- Counterexample to claim C4 as stated: an element whose single interior
neighbor lives in another mesh (`query_elem_ptr` does not return it — the
BoundaryMesh case) is counted once in pass 1 but skipped in pass 2, so its
CSR row is sized 1 but only 0 entries are written. -/
theorem metis_C4_counterexample :
    ¬ (pass1_count [cexBoundaryElem] [(1, 0)]
        (interior_to_boundary_map [cexBoundaryElem]) cexBoundaryElem =
      (pass2_writes [cexBoundaryElem] [(1, 0)]
        (interior_to_boundary_map [cexBoundaryElem]) cexBoundaryElem).length) := by
  decide

/-- Witness for the amended C4: an element whose interior neighbor is in
the partitioned mesh. -/
theorem metis_C4_witness :
    (∀ nf ∈ witBoundaryElem.intNbrs, nf.2 = true) ∧
    pass1_count [witBoundaryElem] [(1, 0)]
        (interior_to_boundary_map [witBoundaryElem]) witBoundaryElem =
      (pass2_writes [witBoundaryElem] [(1, 0)]
        (interior_to_boundary_map [witBoundaryElem]) witBoundaryElem).length :=
  ⟨by decide,
    metis_C4_pass_counts_agree [witBoundaryElem] [(1, 0)]
      (interior_to_boundary_map [witBoundaryElem]) witBoundaryElem (by decide)⟩

/-! ## Lemmas about the CSR graph sizes -/

theorem length_fillRow (vals : List Nat) (start : Nat) (ws : List Nat) :
    (fillRow vals start ws).length = vals.length := by
  induction ws generalizing vals start with
  | nil => rfl
  | cons w rest ih =>
      rw [fillRow, ih]
      exact List.length_set vals start w

theorem getD_set_ne (l : List Nat) (i j v : Nat) (h : i ≠ j) :
    (l.set i v).getD j 0 = l.getD j 0 := by
  induction l generalizing i j with
  | nil => simp
  | cons a rest ih =>
      cases i with
      | zero =>
          cases j with
          | zero => exact absurd rfl h
          | succ j' => simp [List.set]
      | succ i' =>
          cases j with
          | zero => simp [List.set]
          | succ j' =>
              simp only [List.set, List.getD_cons_succ]
              exact ih i' j' (fun hh => h (by rw [hh]))

theorem sum_set_of_getD_zero (l : List Nat) (i v : Nat) (hi : i < l.length)
    (h0 : l.getD i 0 = 0) : (l.set i v).sum = l.sum + v := by
  induction l generalizing i with
  | nil => simp at hi
  | cons a rest ih =>
      cases i with
      | zero =>
          rw [List.getD_cons_zero] at h0
          simp [List.set, h0]
          omega
      | succ i' =>
          rw [List.getD_cons_succ] at h0
          simp only [List.set, List.sum_cons]
          rw [ih i' (by simpa using hi) h0]
          omega

theorem getD_replicate_zero (n j : Nat) :
    (List.replicate n (0 : Nat)).getD j 0 = 0 := by
  induction n generalizing j with
  | zero => simp
  | succ n' ih =>
      cases j with
      | zero => simp [List.replicate]
      | succ j' => simp [List.replicate, ih]

theorem sum_foldl_prep (es : List ElemRec) (offs : List Nat)
    (f : ElemRec → Nat) (c : ElemRec → Nat)
    (hnd : (es.map f).Nodup)
    (hb : ∀ e ∈ es, f e + 1 < offs.length)
    (hz : ∀ e ∈ es, offs.getD (f e + 1) 0 = 0) :
    (es.foldl (fun o e => prep_n_nonzeros o (f e) (c e)) offs).sum =
      offs.sum + (es.map c).sum := by
  induction es generalizing offs with
  | nil => simp
  | cons e rest ih =>
      rw [List.foldl_cons]
      have hnd0 : (f e :: rest.map f).Nodup := by
        rw [← List.map_cons]
        exact hnd
      have hnd' := List.nodup_cons.mp hnd0
      have hbs : ∀ e' ∈ rest, f e' + 1 < (prep_n_nonzeros offs (f e) (c e)).length := by
        intro e' he'
        rw [prep_n_nonzeros, List.length_set]
        exact hb e' (List.mem_cons_of_mem e he')
      have hzs : ∀ e' ∈ rest, (prep_n_nonzeros offs (f e) (c e)).getD (f e' + 1) 0 = 0 := by
        intro e' he'
        have hne : f e + 1 ≠ f e' + 1 := by
          intro hh
          have hfe : f e = f e' := by omega
          exact hnd'.1 (hfe ▸ List.mem_map_of_mem f he')
        rw [prep_n_nonzeros, getD_set_ne _ _ _ _ hne]
        exact hz e' (List.mem_cons_of_mem e he')
      rw [ih (prep_n_nonzeros offs (f e) (c e)) hnd'.2 hbs hzs, prep_n_nonzeros,
        sum_set_of_getD_zero offs (f e + 1) (c e)
          (hb e (List.mem_cons_self e rest)) (hz e (List.mem_cons_self e rest))]
      simp only [List.map_cons, List.sum_cons]
      omega

theorem getLastD_scanSums (l : List Nat) (acc : Nat) :
    (scanSums l acc).getLastD acc = acc + l.sum := by
  induction l generalizing acc with
  | nil => simp [scanSums]
  | cons x rest ih =>
      rw [scanSums, List.getLastD_cons, ih (acc + x)]
      simp [List.sum_cons]
      omega

theorem length_foldl_fillRow (rng : List ElemRec) (v : List Nat)
    (f : ElemRec → Nat) (w : ElemRec → List Nat) :
    (rng.foldl (fun v e => fillRow v (f e) (w e)) v).length = v.length := by
  induction rng generalizing v with
  | nil => rfl
  | cons e rest ih =>
      rw [List.foldl_cons, ih, length_fillRow]

/-- Claim C6: after CSR graph construction the adjacency value array has
size `max(total edge count, 1)`: when the summed pass-1 neighbor count
over all vertices is zero, exactly one dummy slot is allocated (so the
external METIS call never sees an empty edge array); otherwise the size
equals the total edge count. The hypotheses — the global index map sends
the range elements to distinct indices below `n` — are the bijection
property the index map construction guarantees. -/
theorem metis_C6_csr_vals_size (mesh : List ElemRec) (gim : List (Nat × Nat))
    (i2b : List (Nat × Bool × Nat)) (rng : List ElemRec)
    (hnd : (rng.map (fun e => gimFind gim e.eid)).Nodup)
    (hb : ∀ e ∈ rng, gimFind gim e.eid < rng.length) :
    (build_csr_graph mesh gim i2b rng).vals.length =
      max ((rng.map (pass1_count mesh gim i2b)).sum) 1 := by
  rw [build_csr_graph]
  rw [length_foldl_fillRow]
  rw [prepare_for_use]
  rw [List.length_replicate]
  congr 1
  rw [getLastD_scanSums]
  rw [sum_foldl_prep rng (List.replicate (rng.length + 1) 0)
    (fun e => gimFind gim e.eid) (pass1_count mesh gim i2b) hnd
    (by
      intro e he
      show gimFind gim e.eid + 1 < (List.replicate (rng.length + 1) (0 : Nat)).length
      rw [List.length_replicate]
      have := hb e he
      omega)
    (by
      intro e he
      exact getD_replicate_zero _ _)]
  simp

/-- Witness for C6 at a one-element range with an edgeless graph (the
dummy-slot case). -/
theorem metis_C6_witness :
    (([plainElem].map (fun e => gimFind [(1, 0)] e.eid)).Nodup) ∧
    (∀ e ∈ [plainElem], gimFind [(1, 0)] e.eid < [plainElem].length) ∧
    (build_csr_graph [plainElem] [(1, 0)] [] [plainElem]).vals.length =
      max (([plainElem].map (pass1_count [plainElem] [(1, 0)] [])).sum) 1 :=
  ⟨by decide, by decide,
    metis_C6_csr_vals_size [plainElem] [(1, 0)] [] [plainElem] (by decide) (by decide)⟩

/-! ## Lemmas about the partitioner facade -/

/-- Unfolding of the main (METIS) path of `partition_range`: non-empty
range, at least two pieces. -/
theorem partition_range_main (mesh : List ElemRec)
    (engine : METIS_CSR_Graph → List Nat → Nat → List Nat)
    (rng : List ElemRec) (serial : Bool) (k : Nat)
    (hne : rng ≠ []) (hk : 2 ≤ k) :
    partition_range mesh engine rng serial k =
      ⟨assign_partition (build_global_index_map (rng.map (fun e => (e.eid, e.key))))
          (engine
            (build_csr_graph mesh
              (build_global_index_map (rng.map (fun e => (e.eid, e.key))))
              (interior_to_boundary_map rng) rng)
            (build_vwgt (build_global_index_map (rng.map (fun e => (e.eid, e.key)))) rng)
            k)
          rng,
        true,
        (if serial then [] else [.warnGather, .allgather]) ++
          [.builtIndexMap, .builtGraph,
            (if k ≤ 8 then .engineRecursive else .engineKway), .broadcast],
        false⟩ := by
  rw [partition_range, if_neg hne, if_neg (by omega : ¬ k = 1), if_neg (by omega : ¬ k = 0)]

theorem gimFind_lt_of_mem (ps : List (Nat × Nat)) (i : Nat)
    (hi : i ∈ ps.map Prod.fst) :
    gimFind (build_global_index_map ps) i < ps.length := by
  obtain ⟨hlen, hkeys, hndv, hlt, hcomp⟩ := gim_isBijOnto ps
  have hikeys : i ∈ (build_global_index_map ps).map Prod.fst := hkeys.mem_iff.mpr hi
  rw [List.mem_map] at hikeys
  obtain ⟨p, hp, hpi⟩ := hikeys
  have hsome : ∃ q, (build_global_index_map ps).find? (fun q => q.1 = i) = some q := by
    cases hq : (build_global_index_map ps).find? (fun q => q.1 = i) with
    | some q => exact ⟨q, rfl⟩
    | none =>
        rw [List.find?_eq_none] at hq
        have := hq p hp
        rw [decide_eq_true_eq] at this
        exact absurd hpi this
  obtain ⟨q, hq⟩ := hsome
  have hqmem := List.mem_of_find?_eq_some hq
  rw [gimFind, gimLookup, hq]
  exact hlt q.2 (List.mem_map_of_mem Prod.snd hqmem)

/-- Counterexample to claim C1 as stated: a `partition_range` call with
`k = 1` (allowed by the claim's `k >= 1`) assigns every element directly
through the trivial single-partition path — its trace is empty, so no
broadcast partition vector exists to assign from. -/
theorem metis_C1_counterexample :
    (partition_range [] (fun _ _ _ => []) [plainElem] true 1).trace = [] ∧
    PREvent.broadcast ∉ (partition_range [] (fun _ _ _ => []) [plainElem] true 1).trace := by
  decide

/-- Claim C1 as amended: for every call on a non-empty range with
`k >= 1`, no element is skipped (the id sequence of the range is
preserved) and every element's processor id ends in `[0, k)`. With
`k = 1` the ids are assigned the constant 0 by the trivial path, with no
broadcast. With `k >= 2` the broadcast happens and every element's
processor id is the broadcast partition vector's entry at the element's
global index; the `[0, k)` bound holds under METIS's contract that the
part array has length `n` with values below `nparts`. -/
theorem metis_C1_partition_assignment (mesh : List ElemRec)
    (engine : METIS_CSR_Graph → List Nat → Nat → List Nat)
    (rng : List ElemRec) (serial : Bool) (k : Nat)
    (hne : rng ≠ []) (hk : 1 ≤ k)
    (hplen : ∀ g w, (engine g w k).length = rng.length)
    (hpvals : ∀ g w, ∀ v ∈ engine g w k, v < k) :
    ((partition_range mesh engine rng serial k).rng.map (fun e => e.eid) =
      rng.map (fun e => e.eid)) ∧
    (∀ e ∈ (partition_range mesh engine rng serial k).rng, e.pid < k) ∧
    (k = 1 →
      (∀ e ∈ (partition_range mesh engine rng serial k).rng, e.pid = 0) ∧
      PREvent.broadcast ∉ (partition_range mesh engine rng serial k).trace) ∧
    (2 ≤ k →
      PREvent.broadcast ∈ (partition_range mesh engine rng serial k).trace ∧
      (partition_range mesh engine rng serial k).rng =
        assign_partition (build_global_index_map (rng.map (fun e => (e.eid, e.key))))
          (engine
            (build_csr_graph mesh
              (build_global_index_map (rng.map (fun e => (e.eid, e.key))))
              (interior_to_boundary_map rng) rng)
            (build_vwgt (build_global_index_map (rng.map (fun e => (e.eid, e.key)))) rng)
            k)
          rng) := by
  by_cases hk1 : k = 1
  · subst hk1
    have heq : partition_range mesh engine rng serial 1 =
        ⟨single_partition_range rng, serial, [], false⟩ := by
      rw [partition_range, if_neg hne, if_pos rfl]
    rw [heq]
    refine ⟨?_, ?_, ?_, ?_⟩
    · simp [single_partition_range, List.map_map]
    · intro e he
      simp only [single_partition_range, List.mem_map] at he
      obtain ⟨e', he', rfl⟩ := he
      show (0 : Nat) < 1
      omega
    · intro _
      refine ⟨?_, ?_⟩
      · intro e he
        simp only [single_partition_range, List.mem_map] at he
        obtain ⟨e', he', rfl⟩ := he
        rfl
      · simp
    · intro h2
      omega
  · have hk2 : 2 ≤ k := by omega
    rw [partition_range_main mesh engine rng serial k hne hk2]
    refine ⟨?_, ?_, ?_, ?_⟩
    · simp [assign_partition, List.map_map]
    · intro e he
      simp only [assign_partition, List.mem_map] at he
      obtain ⟨e', he', rfl⟩ := he
      have hmemid : e'.eid ∈ (rng.map (fun e => (e.eid, e.key))).map Prod.fst := by
        rw [List.map_map]
        exact List.mem_map_of_mem (Prod.fst ∘ fun e => (e.eid, e.key)) he'
      have hidx : gimFind (build_global_index_map (rng.map (fun e => (e.eid, e.key)))) e'.eid
          < rng.length := by
        have h := gimFind_lt_of_mem (rng.map (fun e => (e.eid, e.key))) e'.eid hmemid
        rwa [List.length_map] at h
      show (engine (build_csr_graph mesh
            (build_global_index_map (rng.map (fun e => (e.eid, e.key))))
            (interior_to_boundary_map rng) rng)
          (build_vwgt (build_global_index_map (rng.map (fun e => (e.eid, e.key)))) rng)
          k).getD
          (gimFind (build_global_index_map (rng.map (fun e => (e.eid, e.key)))) e'.eid) 0 < k
      have hlt : gimFind (build_global_index_map (rng.map (fun e => (e.eid, e.key)))) e'.eid
          < (engine (build_csr_graph mesh
              (build_global_index_map (rng.map (fun e => (e.eid, e.key))))
              (interior_to_boundary_map rng) rng)
            (build_vwgt (build_global_index_map (rng.map (fun e => (e.eid, e.key)))) rng)
            k).length := by
        rw [hplen]
        exact hidx
      refine hpvals
        (build_csr_graph mesh (build_global_index_map (rng.map (fun e => (e.eid, e.key))))
          (interior_to_boundary_map rng) rng)
        (build_vwgt (build_global_index_map (rng.map (fun e => (e.eid, e.key)))) rng)
        _ ?_
      rw [List.getD_eq_getElem _ 0 hlt]
      exact List.getElem_mem _
    · intro h1
      exact absurd h1 hk1
    · intro _
      refine ⟨?_, rfl⟩
      apply List.mem_append_right
      simp

/-- Witness for the amended C1: a one-element range partitioned into two
pieces by a concrete engine assigning part id 1. -/
theorem metis_C1_witness :
    ([plainElem] : List ElemRec) ≠ [] ∧
    1 ≤ 2 ∧
    (∀ g w, (engineOne g w 2).length = ([plainElem] : List ElemRec).length) ∧
    (∀ g w, ∀ v ∈ engineOne g w 2, v < 2) ∧
    (((partition_range [] engineOne [plainElem] true 2).rng.map (fun e => e.eid) =
        ([plainElem] : List ElemRec).map (fun e => e.eid)) ∧
      (∀ e ∈ (partition_range [] engineOne [plainElem] true 2).rng, e.pid < 2) ∧
      (2 = 1 →
        (∀ e ∈ (partition_range [] engineOne [plainElem] true 2).rng, e.pid = 0) ∧
        PREvent.broadcast ∉ (partition_range [] engineOne [plainElem] true 2).trace) ∧
      (2 ≤ 2 →
        PREvent.broadcast ∈ (partition_range [] engineOne [plainElem] true 2).trace ∧
        (partition_range [] engineOne [plainElem] true 2).rng =
          assign_partition
            (build_global_index_map (([plainElem] : List ElemRec).map (fun e => (e.eid, e.key))))
            (engineOne
              (build_csr_graph []
                (build_global_index_map
                  (([plainElem] : List ElemRec).map (fun e => (e.eid, e.key))))
                (interior_to_boundary_map [plainElem]) [plainElem])
              (build_vwgt
                (build_global_index_map
                  (([plainElem] : List ElemRec).map (fun e => (e.eid, e.key))))
                [plainElem])
              2)
            [plainElem])) :=
  ⟨by decide, by omega, fun _ _ => rfl,
    by
      intro g w v hv
      simp only [engineOne, List.mem_singleton] at hv
      omega,
    metis_C1_partition_assignment [] engineOne [plainElem] true 2 (by decide) (by omega)
      (fun _ _ => rfl)
      (by
        intro g w v hv
        simp only [engineOne, List.mem_singleton] at hv
        omega)⟩

/-- Claim C5: for every non-empty range, `partition_range(..., 1)` assigns
owner 0 to every element of the range and returns with an empty trace — no
global index map, no CSR graph, no engine invocation and no broadcast (the
result does not depend on the engine argument at all). -/
theorem metis_C5_trivial_partition (mesh : List ElemRec)
    (engine : METIS_CSR_Graph → List Nat → Nat → List Nat)
    (rng : List ElemRec) (serial : Bool) (hne : rng ≠ []) :
    partition_range mesh engine rng serial 1 =
      ⟨single_partition_range rng, serial, [], false⟩ ∧
    (∀ e ∈ (partition_range mesh engine rng serial 1).rng, e.pid = 0) := by
  have heq : partition_range mesh engine rng serial 1 =
      ⟨single_partition_range rng, serial, [], false⟩ := by
    rw [partition_range, if_neg hne, if_pos rfl]
  refine ⟨heq, ?_⟩
  rw [heq]
  intro e he
  simp only [single_partition_range, List.mem_map] at he
  obtain ⟨e', he', rfl⟩ := he
  rfl

/-- Witness for C5 at a concrete one-element range. -/
theorem metis_C5_witness :
    ([plainElem] : List ElemRec) ≠ [] ∧
    (partition_range [] engineOne [plainElem] true 1 =
        ⟨single_partition_range [plainElem], true, [], false⟩ ∧
      (∀ e ∈ (partition_range [] engineOne [plainElem] true 1).rng, e.pid = 0)) :=
  ⟨by decide, metis_C5_trivial_partition [] engineOne [plainElem] true (by decide)⟩

/-- Claim C7: every call that reaches the partitioning engine (non-empty
range, `n_pieces >= 2`) invokes the recursive-bisection entry point exactly
when `n_pieces <= 8` and the direct k-way entry point exactly when
`n_pieces > 8`; the choice depends only on `n_pieces` (the equivalence
holds for every mesh, engine, range and serial flag). -/
theorem metis_C7_engine_entry_selection (mesh : List ElemRec)
    (engine : METIS_CSR_Graph → List Nat → Nat → List Nat)
    (rng : List ElemRec) (serial : Bool) (k : Nat)
    (hne : rng ≠ []) (hk : 2 ≤ k) :
    ((PREvent.engineRecursive ∈ (partition_range mesh engine rng serial k).trace) ↔ k ≤ 8) ∧
    ((PREvent.engineKway ∈ (partition_range mesh engine rng serial k).trace) ↔ 8 < k) := by
  rw [partition_range_main mesh engine rng serial k hne hk]
  by_cases h8 : k ≤ 8 <;> by_cases hs : serial <;>
    simp [h8, hs, List.mem_append] <;> omega

/-- Witness for C7 at `n_pieces = 9` (the k-way side). -/
theorem metis_C7_witness :
    ([plainElem] : List ElemRec) ≠ [] ∧
    2 ≤ 9 ∧
    (((PREvent.engineRecursive ∈
        (partition_range [] engineOne [plainElem] true 9).trace) ↔ (9 : Nat) ≤ 8) ∧
      ((PREvent.engineKway ∈
        (partition_range [] engineOne [plainElem] true 9).trace) ↔ (8 : Nat) < 9)) :=
  ⟨by decide, by omega,
    metis_C7_engine_entry_selection [] engineOne [plainElem] true 9 (by decide) (by omega)⟩

/-- Counterexample to claim C8 as stated: the call with `n_pieces = 0` on an
empty range returns normally — the empty-range early return of line 75
precedes the assertion of line 84 — so not every `n_pieces = 0` call halts. -/
theorem metis_C8_counterexample :
    (partition_range [] engineOne [] true 0).halted = false := by
  decide

/-- Claim C8 as amended: every `partition_range` call with `n_pieces = 0`
and a non-empty range halts at the fatal assertion
`libmesh_assert_greater (n_pieces, 0)` rather than proceeding or degrading
gracefully; with an empty range the call returns before reaching the
assertion. -/
theorem metis_C8_assert_on_zero_pieces (mesh : List ElemRec)
    (engine : METIS_CSR_Graph → List Nat → Nat → List Nat)
    (rng : List ElemRec) (serial : Bool) (hne : rng ≠ []) :
    (partition_range mesh engine rng serial 0).halted = true := by
  rw [partition_range, if_neg hne, if_neg (by omega : ¬ (0 : Nat) = 1), if_pos rfl]

/-- Witness for the amended C8. -/
theorem metis_C8_witness :
    ([plainElem] : List ElemRec) ≠ [] ∧
    (partition_range [] engineOne [plainElem] true 0).halted = true :=
  ⟨by decide, metis_C8_assert_on_zero_pieces [] engineOne [plainElem] true (by decide)⟩

/-- Counterexample to claim C9: the gather warning of lines 87-91 carries
no do-once guard (unlike the missing-METIS notice of lines 96-99, which is
wrapped in `libmesh_do_once`): a process run with two `partition_range`
calls that each find the mesh not fully replicated — it was redistributed
between the calls — prints the warning twice, not at most once. -/
theorem metis_C9_counterexample :
    ¬ (warnCount ((partition_range [plainElem] engineOne [plainElem] false 2).trace ++
        (partition_range [plainElem] engineOne [plainElem] false 2).trace) ≤ 1) := by
  decide

/-- Claim C9 as amended: a call that reaches the METIS path on a mesh that
is not fully replicated prints the gather warning exactly once during that
call and forces the gather (the mesh is serial afterwards); a call on a
replicated mesh prints nothing. The warning is emitted per such call, not
at most once per process run. -/
theorem metis_C9_gather_warning_per_call (mesh : List ElemRec)
    (engine : METIS_CSR_Graph → List Nat → Nat → List Nat)
    (rng : List ElemRec) (serial : Bool) (k : Nat)
    (hne : rng ≠ []) (hk : 2 ≤ k) :
    warnCount (partition_range mesh engine rng serial k).trace =
      (if serial then 0 else 1) ∧
    (PREvent.allgather ∈ (partition_range mesh engine rng serial k).trace ↔
      serial = false) ∧
    (partition_range mesh engine rng serial k).serial = true := by
  rw [partition_range_main mesh engine rng serial k hne hk]
  by_cases hs : serial <;> by_cases h8 : k ≤ 8 <;>
    simp [hs, h8, warnCount, List.count_append, List.count_cons]

/-- Witness for the amended C9 on a non-replicated mesh. -/
theorem metis_C9_witness :
    ([plainElem] : List ElemRec) ≠ [] ∧
    2 ≤ 2 ∧
    (warnCount (partition_range [] engineOne [plainElem] false 2).trace =
        (if false then 0 else 1) ∧
      (PREvent.allgather ∈ (partition_range [] engineOne [plainElem] false 2).trace ↔
        false = false) ∧
      (partition_range [] engineOne [plainElem] false 2).serial = true) :=
  ⟨by decide, by omega,
    metis_C9_gather_warning_per_call [] engineOne [plainElem] false 2 (by decide) (by omega)⟩

/-- Claim C10: a `partition_range` call on an empty range returns
immediately with no observable effect for every `n_pieces`, including 0
and 1: the processor ids and the serial flag are unchanged, the trace is
empty (no warning, no gather, no broadcast), and no assertion fires. -/
theorem metis_C10_empty_range_noop (mesh : List ElemRec)
    (engine : METIS_CSR_Graph → List Nat → Nat → List Nat)
    (serial : Bool) (n_pieces : Nat) :
    partition_range mesh engine [] serial n_pieces =
      ⟨[], serial, [], false⟩ := by
  rw [partition_range, if_pos rfl]

end LibMeshMetis
